import Mathlib

/-!
Verification development for the NetIPTV ingestion core (src/src/App.jsx):
the playlist (M3U) parser, the guide (XMLTV) parser, name normalization,
the channel-to-guide reconciliation index, and the now/next resolver.

The JavaScript source is shallowly embedded: strings are Lean `String`s
(worked on as `List Char`), ECMAScript `Date` objects are modelled by
`JSDate` (an integer count of milliseconds since the Unix epoch, or the
`invalid` value standing for ECMAScript's "Invalid Date" object, which is
truthy but compares as `NaN`), JS `Map`s and plain objects are association
lists with the Map's insert/overwrite-in-place semantics, and the DOM tree
handed to `parseXMLTV` by `DOMParser.parseFromString` is the inductive
`XNode`. Regular-expression operations used by the source are embedded as
explicit leftmost-match scanners, which is exactly the backtracking-free
behaviour of the concrete patterns involved (their character classes are
disjoint from the characters that follow them, so greedy matching never
backtracks).

Whitespace and case conversions are modelled at ASCII fidelity
(`Char.isWhitespace`, `Char.toLower`); all the inputs appearing in the
claims are ASCII.
-/

namespace NetIPTV

/-! ## Generic JS-style string helpers -/

/-- Model of the JavaScript truthiness idiom `a || b` on strings:
the empty string is falsy. -/
def jsOrS (a b : String) : String := if a = "" then b else a

/-- Model of the JS whitespace class used by `String.prototype.trim`
and the `\s` regex class (ASCII coverage). -/
def isWS (c : Char) : Bool := c.isWhitespace

/-- Drop trailing whitespace. -/
def trimRightC (l : List Char) : List Char := (l.reverse.dropWhile isWS).reverse

/-- Drop leading whitespace. -/
def trimLeftC (l : List Char) : List Char := l.dropWhile isWS

/-- Model of JS `s.trim()` on a character list. -/
def trimC (l : List Char) : List Char := trimRightC (trimLeftC l)

/-- Rebuild a `String` from characters. -/
def strOf (l : List Char) : String := ⟨l⟩

/-- Model of JS `s.trim()`. -/
def trimS (s : String) : String := strOf (trimC s.data)

/-- `pre` is a prefix of `l` (model of JS `startsWith`). -/
def startsWithC : List Char → List Char → Bool
  | [], _ => true
  | _ :: _, [] => false
  | p :: ps, c :: cs => p = c && startsWithC ps cs

/-- First index of character `a`, model of JS `indexOf` (as an `Option`). -/
def firstIdxC (a : Char) : List Char → Option Nat
  | [] => none
  | c :: cs => if c = a then some 0 else (firstIdxC a cs).map (· + 1)

/-- Last index of character `a`, model of JS `lastIndexOf` (as an `Option`). -/
def lastIdxC (a : Char) (l : List Char) : Option Nat :=
  (firstIdxC a l.reverse).map (fun i => l.length - 1 - i)

/-- Association-list lookup (first binding wins), the reading side of both
JS `Map.get` and plain-object indexing. -/
def lookupA {α : Type} : List (String × α) → String → Option α
  | [], _ => none
  | (k, v) :: rest, x => if k = x then some v else lookupA rest x

/-- Model of JS `Map.has` / `key in obj`. -/
def hasKeyA {α : Type} (m : List (String × α)) (x : String) : Bool :=
  (lookupA m x).isSome

/-- Overwrite the first binding of `k` in place. -/
def setFirstA {α : Type} : List (String × α) → String → α → List (String × α)
  | [], _, _ => []
  | (k, v) :: rest, x, w => if k = x then (k, w) :: rest else (k, v) :: setFirstA rest x w

/-- Model of JS `Map.set` / object assignment: an existing key keeps its
position and gets the new value, a new key is appended at the end
(insertion order). -/
def setA {α : Type} (m : List (String × α)) (x : String) (w : α) : List (String × α) :=
  if hasKeyA m x then setFirstA m x w else m ++ [(x, w)]

/-- Split a character list at each `\r\n` or `\n`, the exact semantics of
JS `text.split(/\r?\n/)`: a lone `\r` is not a separator and stays in the
line. `go` carries the current line reversed. -/
def splitLinesGo (cur : List Char) : List Char → List (List Char)
  | [] => [cur.reverse]
  | '\n' :: rest => cur.reverse :: splitLinesGo [] rest
  | '\r' :: '\n' :: rest => cur.reverse :: splitLinesGo [] rest
  | c :: rest => splitLinesGo (c :: cur) rest

/-- Model of JS `text.split(/\r?\n/)`. -/
def splitLinesJS (l : List Char) : List (List Char) := splitLinesGo [] l

/-! ## The ECMAScript `Date` model -/

/-- An ECMAScript `Date` object: either a valid instant (milliseconds since
the Unix epoch) or the "Invalid Date" object (internal value `NaN`). -/
inductive JSDate where
  | invalid
  | valid (ms : Int)
deriving DecidableEq, Repr

/-- JS `<` on two `Date`s: numeric comparison of the time values, false
whenever either is `NaN` (Invalid Date). -/
def jsDateLt : JSDate → JSDate → Bool
  | .valid a, .valid b => a < b
  | _, _ => false

/-- JS `<=` on two `Date`s: numeric comparison of the time values, false
whenever either is `NaN` (Invalid Date). -/
def jsDateLe : JSDate → JSDate → Bool
  | .valid a, .valid b => a ≤ b
  | _, _ => false

/-- Proleptic-Gregorian leap-year test. -/
def isLeap (y : Nat) : Bool := (y % 4 = 0 && y % 100 ≠ 0) || y % 400 = 0

/-- Days in a month of the proleptic Gregorian calendar. -/
def daysInMonth (y mo : Nat) : Nat :=
  if mo = 1 then 31
  else if mo = 2 then (if isLeap y then 29 else 28)
  else if mo = 3 then 31
  else if mo = 4 then 30
  else if mo = 5 then 31
  else if mo = 6 then 30
  else if mo = 7 then 31
  else if mo = 8 then 31
  else if mo = 9 then 30
  else if mo = 10 then 31
  else if mo = 11 then 30
  else 31

/-- Julian day number of a proleptic-Gregorian date (standard formula,
valid for the four-digit years the timestamp grammar can produce). -/
def jdn (y mo d : Nat) : Nat :=
  let a := (14 - mo) / 12
  let y2 := y + 4800 - a
  let m2 := mo + 12 * a - 3
  d + (153 * m2 + 2) / 5 + 365 * y2 + y2 / 4 - y2 / 100 + y2 / 400 - 32045

/-- Milliseconds since the Unix epoch of a civil UTC date-time shifted by
`offMin` minutes of UTC offset. -/
def utcMs (y mo d h mi s : Nat) (offMin : Int) : Int :=
  ((jdn y mo d : Int) - 2440588) * 86400000
    + ((h : Int) * 3600000 + (mi : Int) * 60000 + (s : Int) * 1000)
    - offMin * 60000

/-- The ECMAScript `new Date(iso)` behaviour on the exact ISO strings that
`parseXmltvDate` constructs (`YYYY-MM-DDTHH:MM:SS` followed by `Z` or a
`±HH:MM` offset): per the Date Time String Format, out-of-range fields
(month, calendar day, hour — with `24:00:00` allowed — minute, second, or
offset components) give an Invalid Date, in-range fields give the
corresponding UTC instant. `tz = none` is the appended `Z`; a present
offset is `(sign, hh, mm)` with `sign = true` for `+`. -/
def jsDateOfISO (y mo d h mi s : Nat) (tz : Option (Bool × Nat × Nat)) : JSDate :=
  let tzOK : Bool := match tz with
    | none => true
    | some (_, hh, mm) => hh ≤ 23 && mm ≤ 59
  if 1 ≤ mo ∧ mo ≤ 12 ∧ 1 ≤ d ∧ d ≤ daysInMonth y mo
      ∧ (h ≤ 23 ∨ (h = 24 ∧ mi = 0 ∧ s = 0)) ∧ mi ≤ 59 ∧ s ≤ 59 ∧ tzOK = true then
    let offMin : Int := match tz with
      | none => 0
      | some (sign, hh, mm) => (if sign then 1 else -1) * ((hh : Int) * 60 + (mm : Int))
    .valid (utcMs y mo d h mi s offMin)
  else
    .invalid

/-! ## `parseXmltvDate` (App.jsx lines 67–74)

The source matches
`/(\d{4})(\d{2})(\d{2})(\d{2})(\d{2})(\d{2})(?:\s?([+-]\d{4}))?/`
against the input — an *unanchored* search — and feeds the captured groups
into `new Date`. The scanner below implements exactly that leftmost
unanchored match: fourteen consecutive digits, optionally followed by at
most one whitespace character and a sign with four digits. -/

/-- Numeric value of a digit list. -/
def natOfDigits (l : List Char) : Nat :=
  l.foldl (fun n c => n * 10 + (c.toNat - 48)) 0

/-- The captured groups of a successful timestamp match. -/
structure TsMatch where
  y : Nat
  mo : Nat
  d : Nat
  h : Nat
  mi : Nat
  s : Nat
  tz : Option (Bool × Nat × Nat)
deriving DecidableEq, Repr

/-- Greedy match of the optional `(?:\s?([+-]\d{4}))?` group right after
the fourteen digits: one whitespace then sign and four digits, else sign
and four digits directly, else no capture. -/
def tryOffset (l : List Char) : Option (Bool × Nat × Nat) :=
  match l with
  | w :: s :: d1 :: d2 :: d3 :: d4 :: _ =>
    if isWS w && (s = '+' || s = '-') && d1.isDigit && d2.isDigit && d3.isDigit && d4.isDigit then
      some (s = '+', natOfDigits [d1, d2], natOfDigits [d3, d4])
    else if (w = '+' || w = '-') && s.isDigit && d1.isDigit && d2.isDigit && d3.isDigit then
      some (w = '+', natOfDigits [s, d1], natOfDigits [d2, d3])
    else none
  | s :: d1 :: d2 :: d3 :: d4 :: _ =>
    if (s = '+' || s = '-') && d1.isDigit && d2.isDigit && d3.isDigit && d4.isDigit then
      some (s = '+', natOfDigits [d1, d2], natOfDigits [d3, d4])
    else none
  | _ => none

/-- Do the first fourteen characters of `l` exist and consist of digits? -/
def first14Digits (l : List Char) : Bool :=
  decide (l.length ≥ 14) && (l.take 14).all Char.isDigit

/-- Try the whole pattern anchored at the current position. -/
def tryTsHere (l : List Char) : Option TsMatch :=
  if first14Digits l then
    let ds := l.take 14
    some { y := natOfDigits (ds.take 4)
         , mo := natOfDigits ((ds.drop 4).take 2)
         , d := natOfDigits ((ds.drop 6).take 2)
         , h := natOfDigits ((ds.drop 8).take 2)
         , mi := natOfDigits ((ds.drop 10).take 2)
         , s := natOfDigits ((ds.drop 12).take 2)
         , tz := tryOffset (l.drop 14) }
  else none

/-- Leftmost unanchored search for the timestamp pattern. -/
def scanTs : List Char → Option TsMatch
  | [] => none
  | c :: rest =>
    match tryTsHere (c :: rest) with
    | some m => some m
    | none => scanTs rest

/-- `parseXmltvDate` (App.jsx 67–74): unanchored regex search, then
`new Date` on the ISO string assembled from the captures (`Z` appended
when the offset capture is absent). Returns `none` (JS `null`) exactly
when the input is empty or the pattern occurs nowhere; decoding the
`if (!s)` guard is subsumed because the scan of an empty string fails. -/
def parseXmltvDate (s : String) : Option JSDate :=
  (scanTs s.data).map (fun m => jsDateOfISO m.y m.mo m.d m.h m.mi m.s m.tz)

/-- Lift to the nullable attribute it is applied to in `parseXMLTV`
(`p.getAttribute(..)` is `null` when the attribute is absent, and
`parseXmltvDate(null)` returns `null` through its falsiness guard). -/
def parseXmltvDateOpt : Option String → Option JSDate
  | none => none
  | some s => parseXmltvDate s

/-- Spec-side predicate: does the string contain fourteen consecutive
digits anywhere (the sole condition for the unanchored pattern to match —
the offset group is optional and never blocks a match)? -/
def hasRun14 : List Char → Bool
  | [] => false
  | c :: rest => first14Digits (c :: rest) || hasRun14 rest

/-! ## The DOM tree handed over by `DOMParser.parseFromString` -/

/-- A parsed markup node: an element with its tag, attributes and children,
or a text node. `parseXMLTV` receives such a tree (the document) from the
browser's `DOMParser`; quantifying over all trees quantifies over all
possible parsed guide documents. -/
inductive XNode where
  | elem (tag : String) (attrs : List (String × String)) (children : List XNode)
  | text (s : String)

mutual
/-- All elements with the given tag in the subtree rooted at the node, in
tree (pre-)order — the DOM `querySelectorAll(tag)` result for a simple
type selector. -/
def collectTag (t : String) : XNode → List XNode
  | .elem tag attrs children =>
    (if tag = t then [XNode.elem tag attrs children] else []) ++ collectTagL t children
  | .text _ => []
/-- `collectTag` over a list of siblings, in order. -/
def collectTagL (t : String) : List XNode → List XNode
  | [] => []
  | x :: xs => collectTag t x ++ collectTagL t xs
end

mutual
/-- DOM `textContent`: the concatenation of all text in the subtree. -/
def textContent : XNode → String
  | .elem _ _ children => textContentL children
  | .text s => s
/-- `textContent` over a list of siblings. -/
def textContentL : List XNode → String
  | [] => ""
  | x :: xs => textContent x ++ textContentL xs
end

/-- DOM `getAttribute` (null, i.e. `none`, when absent). -/
def getAttr : XNode → String → Option String
  | .elem _ attrs _, a => lookupA attrs a
  | .text _, _ => none

/-- DOM `element.querySelector(tag)`: the first descendant element (the
element itself excluded) with the given tag, in tree order. -/
def qSelFirst (t : String) : XNode → Option XNode
  | .elem _ _ children => (collectTagL t children).head?
  | .text _ => none

/-! ## `parseXMLTV` (App.jsx lines 75–98) -/

/-- One `<programme>` turned into a guide entry. -/
structure ProgramEntry where
  start : JSDate
  stop : JSDate
  title : String
  desc : String
  category : String
deriving DecidableEq, Repr

/-- The result of a guide parse: `channelIdToName` and `progs`, both JS
`Map`s in insertion order. -/
structure GuideIndex where
  channelIdToName : List (String × String)
  progs : List (String × List ProgramEntry)
deriving DecidableEq

/-- `ch.querySelector("display-name")?.textContent?.trim() || id`. -/
def chanName (ch : XNode) (id : String) : String :=
  match qSelFirst "display-name" ch with
  | none => id
  | some el => jsOrS (trimS (textContent el)) id

/-- The `channel`-element loop of `parseXMLTV` (App.jsx 78–82). -/
def buildChannelMap (els : List XNode) : List (String × String) :=
  els.foldl (fun m ch =>
    let id := (getAttr ch "id").getD ""
    setA m id (chanName ch id)) []

/-- `p.querySelector(tag)?.textContent?.trim() || dflt`. -/
def textOrD (p : XNode) (t dflt : String) : String :=
  match qSelFirst t p with
  | none => dflt
  | some el => jsOrS (trimS (textContent el)) dflt

/-- The per-`programme` work of `parseXMLTV` (App.jsx 84–94): `none` when
`start` or `stop` is absent or the timestamp pattern matches nowhere
(the early `return`), otherwise the channel key and the entry that is
pushed. An Invalid Date is a truthy object, so out-of-range components
do not cause the entry to be dropped. -/
def programmeEntry (p : XNode) : Option (String × ProgramEntry) :=
  match parseXmltvDateOpt (getAttr p "start"), parseXmltvDateOpt (getAttr p "stop") with
  | some st, some sp =>
    some ((getAttr p "channel").getD "",
      { start := st
      , stop := sp
      , title := textOrD p "title" "(okänt)"
      , desc := textOrD p "desc" ""
      , category := textOrD p "category" "" })
  | _, _ => none

/-- Append `v` to the list stored under the (present) key `x`, keeping the
key's position. -/
def appendAtA {α : Type} : List (String × List α) → String → α → List (String × List α)
  | [], _, _ => []
  | (k, l) :: rest, x, v => if k = x then (k, l ++ [v]) :: rest else (k, l) :: appendAtA rest x v

/-- `if (!m.has(x)) m.set(x, []); m.get(x).push(v);` — the ordered
multimap push used for both `progs` and the name index. -/
def pushMM {α : Type} (m : List (String × List α)) (x : String) (v : α) : List (String × List α) :=
  if hasKeyA m x then appendAtA m x v else m ++ [(x, [v])]

/-- The `programme`-element loop of `parseXMLTV` (App.jsx 84–95), before
sorting. -/
def buildProgs (els : List XNode) : List (String × List ProgramEntry) :=
  els.foldl (fun m p =>
    match programmeEntry p with
    | none => m
    | some (c, ep) => pushMM m c ep) []

/-- The value of the comparator `(a, b) => a.start - b.start` as coerced
by the ECMAScript sort machinery: a subtraction of the two time values,
with a `NaN` result (an Invalid Date on either side) coerced to `+0`. -/
def cmpVal : JSDate → JSDate → Int
  | .valid x, .valid y => x - y
  | _, _ => 0

/-- "`a` need not come after `b`" for the programme comparator. -/
def progLe (a b : ProgramEntry) : Bool := cmpVal a.start b.start ≤ 0

/-- Insert `x` into `l` before the first element `y` with `le x y` — the
characteristic insertion of a stable sort. -/
def sortInsert {α : Type} (le : α → α → Bool) (x : α) : List α → List α
  | [] => [x]
  | y :: ys => if le x y then x :: y :: ys else y :: sortInsert le x ys

/-- A stable sort. ECMAScript `Array.prototype.sort` guarantees exactly a
stable sort consistent with the comparator (for a consistent comparator
the stably sorted permutation is unique, so any stable sort is a faithful
model). -/
def stableSort {α : Type} (le : α → α → Bool) : List α → List α
  | [] => []
  | x :: xs => sortInsert le x (stableSort le xs)

/-- The per-channel sorting pass of `parseXMLTV` (App.jsx 96). -/
def sortProgs (m : List (String × List ProgramEntry)) : List (String × List ProgramEntry) :=
  m.map (fun kv => (kv.1, stableSort progLe kv.2))

/-- `parseXMLTV` (App.jsx 75–98) applied to the document tree produced by
`DOMParser.parseFromString`. There is no failure path: the function is
total in the source as well (`DOMParser` never throws; see the error-model
note before `domParserErrorDocument`). -/
def parseXMLTV (doc : XNode) : GuideIndex :=
  { channelIdToName := buildChannelMap (collectTag "channel" doc)
  , progs := sortProgs (buildProgs (collectTag "programme" doc)) }

/-- Lookup in the `progs` map of a parse result. -/
def progsLookup (g : GuideIndex) (id : String) : Option (List ProgramEntry) :=
  lookupA g.progs id

/-- The pre-sort (source-document-order) programme list of a channel. -/
def preSortLookup (doc : XNode) (id : String) : Option (List ProgramEntry) :=
  lookupA (buildProgs (collectTag "programme" doc)) id

/-! ## `normalizeName` and the reconciliation index (App.jsx 99–110) -/

/-- The characters the normalizer keeps: `[a-z0-9]`. -/
def isKeep (c : Char) : Bool := ('a' ≤ c && c ≤ 'z') || ('0' ≤ c && c ≤ '9')

/-- Global replacement of `/[^a-z0-9]+/g` by a single space: a leftmost
scan where `inRun` records that the current maximal run of non-kept
characters has already emitted its space. -/
def replaceRuns : Bool → List Char → List Char
  | _, [] => []
  | inRun, c :: rest =>
    if isKeep c then c :: replaceRuns false rest
    else if inRun then replaceRuns true rest
    else ' ' :: replaceRuns true rest

/-- `normalizeName` (App.jsx 99–101):
`(s || "").toLowerCase().replace(/[^a-z0-9]+/g, " ").trim()`. A missing
(undefined) argument is the same as the empty string through the
falsiness guard. -/
def normalizeName (s : String) : String :=
  strOf (trimC (replaceRuns false (s.data.map Char.toLower)))

/-- `buildNameIndex` (App.jsx 102–110): the reconciliation index from
normalized display name to the guide-channel ids carrying it, ids in
first-seen order. -/
def buildNameIndex (c2n : List (String × String)) : List (String × List String) :=
  c2n.foldl (fun m kv => pushMM m (normalizeName kv.2) kv.1) []

/-! ## `getEpgForChannel` and `nowNextForChannel` (App.jsx 111–134) -/

/-- A playlist channel record, as produced by `parseM3U`. -/
structure Channel where
  title : String
  group : String
  logo : String
  tvgId : String
  chno : String
  rawAttrs : List (String × String)
  url : String
deriving DecidableEq

/-- First element satisfying `p` (the `for … if … return` loop shape). -/
def firstP {α : Type} (p : α → Bool) : List α → Option α
  | [] => none
  | x :: xs => if p x then some x else firstP p xs

/-- The normalized-name branch of `getEpgForChannel` (App.jsx 115–121):
look the key up in the name index and take the first candidate id present
in `progs`. -/
def nameLookupPath (g : GuideIndex) (key : String) : Option (String × List ProgramEntry) :=
  match lookupA (buildNameIndex g.channelIdToName) key with
  | none => none
  | some ids =>
    match firstP (fun id => hasKeyA g.progs id) ids with
    | none => none
    | some id => some (id, (lookupA g.progs id).getD [])

/-- `getEpgForChannel` (App.jsx 111–122). The direct branch fires when
`ch.tvgId` is truthy (non-empty) and a key of `progs`; otherwise the
normalized key is computed from `ch.title || ch.rawAttrs?.["tvg-name"]`
(title falls back to the hint attribute only when *empty*). -/
def getEpgForChannel (ch : Channel) (epg : Option GuideIndex) :
    Option (String × List ProgramEntry) :=
  match epg with
  | none => none
  | some g =>
    if ch.tvgId ≠ "" && hasKeyA g.progs ch.tvgId then
      some (ch.tvgId, (lookupA g.progs ch.tvgId).getD [])
    else
      nameLookupPath g (normalizeName (jsOrS ch.title ((lookupA ch.rawAttrs "tvg-name").getD "")))

/-- The scan loop of `nowNextForChannel` (App.jsx 127–133) over the
matched list: first entry with `start <= now && now < stop` becomes
`current` with its successor as `next`; otherwise the first entry with
`start > now` becomes `next`; otherwise keep scanning. -/
def nowNextScan (now : JSDate) : List ProgramEntry → Option ProgramEntry × Option ProgramEntry
  | [] => (none, none)
  | p :: rest =>
    if jsDateLe p.start now && jsDateLt now p.stop then (some p, rest.head?)
    else if jsDateLt now p.start then (none, some p)
    else nowNextScan now rest

/-- `nowNextForChannel` (App.jsx 123–134). -/
def nowNextForChannel (ch : Channel) (epg : Option GuideIndex) (now : JSDate) :
    Option ProgramEntry × Option ProgramEntry :=
  match getEpgForChannel ch epg with
  | none => (none, none)
  | some hit => nowNextScan now hit.2

/-! ## `parseM3U` (App.jsx 31–64) -/

/-- JS `\w`: `[A-Za-z0-9_]`. -/
def isWordChar (c : Char) : Bool := c.isAlpha || c.isDigit || c = '_'

/-- Word character or `-` (the identifier tail class `[\w-]`). -/
def isWordDash (c : Char) : Bool := isWordChar c || c = '-'

/-- One attempt of the attribute pattern
`(\w[\w-]*)\s*=\s*"([^"]*)"` anchored at the current position. The greedy
sub-patterns never need to backtrack because each character class is
disjoint from what must follow it. Returns the key, the value and the
remainder after the closing quote. -/
def attrMatchHere : List Char → Option (String × String × List Char)
  | [] => none
  | c :: rest =>
    if isWordChar c then
      let ident := c :: rest.takeWhile isWordDash
      let r1 := (rest.dropWhile isWordDash).dropWhile isWS
      match r1 with
      | '=' :: r2 =>
        match r2.dropWhile isWS with
        | '"' :: r3 =>
          let v := r3.takeWhile (fun ch => ch ≠ '"')
          match r3.dropWhile (fun ch => ch ≠ '"') with
          | '"' :: r4 => some (strOf ident, strOf v, r4)
          | _ => none
        | _ => none
      | _ => none
    else none

/-- The repeated-`exec` scan of `parseAttrs` (App.jsx 35–40): leftmost
non-overlapping matches, duplicate keys overwriting (plain-object
assignment). Fuelled for structural recursion; every step consumes at
least one character, so `length + 1` fuel never runs out. -/
def parseAttrsGo : Nat → List Char → List (String × String) → List (String × String)
  | 0, _, acc => acc
  | _ + 1, [], acc => acc
  | fuel + 1, c :: rest, acc =>
    match attrMatchHere (c :: rest) with
    | some (k, v, rest2) => parseAttrsGo fuel rest2 (setA acc k v)
    | none => parseAttrsGo fuel rest acc

/-- `parseAttrs` (App.jsx 35–40). -/
def parseAttrs (s : List Char) : List (String × String) :=
  parseAttrsGo (s.length + 1) s []

/-- The metadata carried from an `#EXTINF` line to its URL line. -/
structure M3UMeta where
  title : String
  group : String
  logo : String
  tvgId : String
  chno : String
  rawAttrs : List (String × String)
deriving DecidableEq

/-- The `#EXTINF` branch of `parseM3U` (App.jsx 44–57) applied to the
trimmed line: substring after the first `:` (the whole line when there is
none, since `indexOf` returns `-1` and `substring(0)` is everything), the
display title after the last comma, attributes before it. -/
def mkMeta (line : List Char) : M3UMeta :=
  let metaPart := match firstIdxC ':' line with
    | none => line
    | some i => line.drop (i + 1)
  let attrsPart := match lastIdxC ',' metaPart with
    | none => metaPart
    | some i => metaPart.take i
  let titlePart := match lastIdxC ',' metaPart with
    | none => ([] : List Char)
    | some i => trimC (metaPart.drop (i + 1))
  let attrs := parseAttrs attrsPart
  let attrD := fun k => (lookupA attrs k).getD ""
  { title := jsOrS (strOf titlePart) (jsOrS (attrD "tvg-name") "Unknown")
  , group := jsOrS (attrD "group-title") "Other"
  , logo := attrD "tvg-logo"
  , tvgId := attrD "tvg-id"
  , chno := attrD "tvg-chno"
  , rawAttrs := attrs }

/-- `channels.push({ ...currentMeta, url: line })`. -/
def mkChan (m : M3UMeta) (url : List Char) : Channel :=
  { title := m.title, group := m.group, logo := m.logo, tvgId := m.tvgId
  , chno := m.chno, rawAttrs := m.rawAttrs, url := strOf url }

/-- The line loop of `parseM3U` (App.jsx 41–62): blank lines are skipped,
an `#EXTINF` line (re)fills the pending slot, a URL line (non-empty, not
`#`-prefixed) with a pending slot emits a record and clears the slot, and
any other line — in particular a `#` comment — changes nothing. -/
def parseM3ULoop : List (List Char) → Option M3UMeta → List Channel
  | [], _ => []
  | l :: rest, cur =>
    let line := trimC l
    if line = [] then parseM3ULoop rest cur
    else if startsWithC "#EXTINF".data line then parseM3ULoop rest (some (mkMeta line))
    else if startsWithC ['#'] line then parseM3ULoop rest cur
    else
      match cur with
      | some m => mkChan m line :: parseM3ULoop rest none
      | none => parseM3ULoop rest none

/-- `parseM3U` (App.jsx 31–64). -/
def parseM3U (text : String) : List Channel :=
  parseM3ULoop (splitLinesJS text.data) none

/-! ## Spec-side reference definitions

These follow the specification's wording and are compared against the
source-derived definitions above. -/

/-- `l[i]` as an option. -/
def nth? {α : Type} : List α → Nat → Option α
  | [], _ => none
  | x :: _, 0 => some x
  | _ :: xs, n + 1 => nth? xs n

/-- Index of the first element satisfying `p`. -/
def findIdxP {α : Type} (p : α → Bool) : List α → Option Nat
  | [] => none
  | x :: xs => if p x then some 0 else (findIdxP p xs).map (· + 1)

/-- The spec's description of now/next resolution on a matched list: the
first entry containing `now` is `current` and its immediate successor is
`next`; when no entry contains `now`, `current` is none and `next` is the
first entry with `start > now`. -/
def specNowNext (now : JSDate) (arr : List ProgramEntry) :
    Option ProgramEntry × Option ProgramEntry :=
  match findIdxP (fun p => jsDateLe p.start now && jsDateLt now p.stop) arr with
  | some i => (nth? arr i, nth? arr (i + 1))
  | none => (none, firstP (fun p => jsDateLt now p.start) arr)

/-- The maximal runs of kept (`[a-z0-9]`) characters of a string, in
order; the state is the current word reversed. -/
def wordsGo : Option (List Char) → List Char → List (List Char)
  | none, [] => []
  | some w, [] => [w.reverse]
  | none, c :: rest => if isKeep c then wordsGo (some [c]) rest else wordsGo none rest
  | some w, c :: rest =>
    if isKeep c then wordsGo (some (c :: w)) rest else w.reverse :: wordsGo none rest

/-- Join with single spaces: the tail part, each word preceded by one
space. -/
def joinWordsTail : List (List Char) → List Char
  | [] => []
  | w :: ws => ' ' :: (w ++ joinWordsTail ws)

/-- Join words with single spaces, no leading or trailing space. -/
def joinWords : List (List Char) → List Char
  | [] => []
  | w :: ws => w ++ joinWordsTail ws

/-- The spec's reference definition of name normalization: lower-case,
then the maximal runs of characters outside `[a-z0-9]` each become a
single separating space, with no leading or trailing space — i.e. the
kept runs joined by single spaces. -/
def specNormalize (s : String) : String :=
  strOf (joinWords (wordsGo none (s.data.map Char.toLower)))

/-- The lines of a metadata/URL pair list, in source order. -/
def pairLines : List (String × String) → List String
  | [] => []
  | (m, u) :: rest => m :: u :: pairLines rest

/-- The character lists of those lines. -/
def pairLineData : List (String × String) → List (List Char)
  | [] => []
  | (m, u) :: rest => m.data :: u.data :: pairLineData rest

/-- The record a valid metadata/URL pair produces. -/
def pairRecord (q : String × String) : Channel :=
  mkChan (mkMeta (trimC q.1.data)) (trimC q.2.data)

/-- Join lines with `"\n"`, tail part. -/
def joinLinesTail : List String → String
  | [] => ""
  | s :: rest => "\n" ++ s ++ joinLinesTail rest

/-- Join lines with `"\n"` separators. -/
def joinLines : List String → String
  | [] => ""
  | s :: rest => s ++ joinLinesTail rest

/-- A line with none of the characters the line splitter `\r?\n` reacts
to. -/
def cleanLine (s : String) : Prop := ∀ c ∈ s.data, c ≠ '\n' ∧ c ≠ '\r'

instance (s : String) : Decidable (cleanLine s) := by
  unfold cleanLine; infer_instance

/-- A well-formed `#EXTINF` metadata line. -/
def validMetaLine (s : String) : Prop :=
  cleanLine s ∧ startsWithC "#EXTINF".data (trimC s.data) = true

/-- A well-formed URL line: non-blank after trimming and not
`#`-prefixed. -/
def validUrlLine (s : String) : Prop :=
  cleanLine s ∧ trimC s.data ≠ [] ∧ startsWithC ['#'] (trimC s.data) = false

/-- A comment line: `#`-prefixed after trimming but not an `#EXTINF`
marker. -/
def validCommentLine (s : String) : Prop :=
  cleanLine s ∧ startsWithC ['#'] (trimC s.data) = true
    ∧ startsWithC "#EXTINF".data (trimC s.data) = false

instance (s : String) : Decidable (validMetaLine s) := by
  unfold validMetaLine; infer_instance
instance (s : String) : Decidable (validUrlLine s) := by
  unfold validUrlLine; infer_instance
instance (s : String) : Decidable (validCommentLine s) := by
  unfold validCommentLine; infer_instance

/-! ## Concrete inputs used by counterexamples and witnesses -/

/-- Modelled from the spec: the spec's MalformedDocument case says a guide
text that is not well-formed markup makes the parser abort with a hard
failure. The aborting behaviour would live in the browser `DOMParser`
used by `parseXMLTV` (not part of src/); by the WHATWG contract
`parseFromString` never throws — on input that is not well-formed it
returns a document whose content is a `parsererror` element describing
the error, and `parseXMLTV` goes on to process that document. This is
such an error document (the shape Firefox returns, e.g. for the
non-well-formed input `"<tv><channel id="`). -/
def domParserErrorDocument : XNode :=
  .elem "parsererror"
    [("xmlns", "http://www.mozilla.org/newlayout/xml/parsererror.xml")]
    [.text "XML Parsing Error: no element found"]

/-- A guide document whose single programme has its `stop` before its
`start` (19:00 to 18:00). -/
def docC3 : XNode :=
  .elem "tv" []
    [ .elem "programme"
        [("channel", "c"), ("start", "20250101190000"), ("stop", "20250101180000")] [] ]

/-- The entry `parseXMLTV` builds from `docC3`: start 2025-01-01T19:00Z,
stop 2025-01-01T18:00Z. -/
def entC3 : ProgramEntry :=
  { start := .valid 1735758000000, stop := .valid 1735754400000
  , title := "(okänt)", desc := "", category := "" }

/-- A programme entry with `start` after `stop` (possible per `docC3`). -/
def entC5 : ProgramEntry :=
  { start := .valid 10, stop := .valid 9, title := "p", desc := "", category := "" }

/-- A programme list for the guide channel `X`. -/
def progX : ProgramEntry :=
  { start := .valid 0, stop := .valid 3600000, title := "Show", desc := "", category := "" }

/-- A guide index declaring channel `X` under the display name
`bbc one`, with one programme. -/
def epgBBC : GuideIndex :=
  { channelIdToName := [("X", "bbc one")], progs := [("X", [progX])] }

/-- A playlist channel with an empty guide id and title `BBC One`. -/
def chBBC : Channel :=
  { title := "BBC One", group := "Other", logo := "", tvgId := "", chno := ""
  , rawAttrs := [], url := "http://x/bbc1.m3u8" }

/-- A playlist channel whose title is the literal `Unknown` sentinel and
whose metadata carries the guide hint `tvg-name="BBC One"`. -/
def chUnknown : Channel :=
  { title := "Unknown", group := "Other", logo := "", tvgId := "", chno := ""
  , rawAttrs := [("tvg-name", "BBC One")], url := "http://x/u.m3u8" }

/-! ## Lemmas: line splitting, joining, and the playlist loop -/

lemma extinf_line_ne_nil {l : List Char} (h : startsWithC "#EXTINF".data l = true) :
    l ≠ [] := by
  intro he
  subst he
  simp [show "#EXTINF".data = ['#', 'E', 'X', 'T', 'I', 'N', 'F'] from rfl, startsWithC] at h

lemma startsWithC_extinf_hash {l : List Char}
    (h : startsWithC "#EXTINF".data l = true) : startsWithC ['#'] l = true := by
  cases l with
  | nil => exact absurd h (by simp [show "#EXTINF".data = ['#', 'E', 'X', 'T', 'I', 'N', 'F'] from rfl, startsWithC])
  | cons c cs =>
    simp [show "#EXTINF".data = ['#', 'E', 'X', 'T', 'I', 'N', 'F'] from rfl, startsWithC] at h ⊢
    exact h.1

lemma splitLinesGo_clean {l : List Char} (hcl : ∀ c ∈ l, c ≠ '\n' ∧ c ≠ '\r') :
    ∀ acc, splitLinesGo acc l = [acc.reverse ++ l] := by
  induction l with
  | nil => intro acc; simp [splitLinesGo]
  | cons c rest ih =>
    intro acc
    obtain ⟨h1, h2⟩ := hcl c (by simp)
    rw [show splitLinesGo acc (c :: rest) = splitLinesGo (c :: acc) rest from by
          simp [splitLinesGo, h1, h2],
        ih (fun x hx => hcl x (by simp [hx])) (c :: acc)]
    simp

lemma splitLinesGo_append_nl {l : List Char} (hcl : ∀ c ∈ l, c ≠ '\n' ∧ c ≠ '\r') :
    ∀ acc rest, splitLinesGo acc (l ++ '\n' :: rest)
      = (acc.reverse ++ l) :: splitLinesGo [] rest := by
  induction l with
  | nil => intro acc rest; simp [splitLinesGo]
  | cons c t ih =>
    intro acc rest
    obtain ⟨h1, h2⟩ := hcl c (by simp)
    rw [List.cons_append,
        show splitLinesGo acc (c :: (t ++ '\n' :: rest)) = splitLinesGo (c :: acc) (t ++ '\n' :: rest) from by
          simp [splitLinesGo, h1, h2],
        ih (fun x hx => hcl x (by simp [hx]))]
    simp

lemma joinLines_data_cons (s t : String) (rest : List String) :
    (joinLines (s :: t :: rest)).data = s.data ++ '\n' :: (joinLines (t :: rest)).data := by
  show (s ++ joinLinesTail (t :: rest)).data = _
  rw [show joinLinesTail (t :: rest) = "\n" ++ t ++ joinLinesTail rest from rfl,
      show joinLines (t :: rest) = t ++ joinLinesTail rest from rfl]
  simp [String.data_append, show "\n".data = ['\n'] from rfl]

lemma splitLinesJS_joinLines (ls : List String) (h : ∀ s ∈ ls, cleanLine s) (hne : ls ≠ []) :
    splitLinesJS (joinLines ls).data = ls.map String.data := by
  induction ls with
  | nil => exact absurd rfl hne
  | cons s rest ih =>
    cases rest with
    | nil =>
      have hd : (joinLines [s]).data = s.data := by
        show (s ++ joinLinesTail []).data = s.data
        simp [String.data_append, show joinLinesTail [] = "" from rfl]
      unfold splitLinesJS
      rw [hd, splitLinesGo_clean (h s (by simp))]
      simp
    | cons t rest' =>
      unfold splitLinesJS
      rw [joinLines_data_cons, splitLinesGo_append_nl (h s (by simp))]
      simp only [List.reverse_nil, List.nil_append]
      rw [show splitLinesGo [] (joinLines (t :: rest')).data
            = splitLinesJS (joinLines (t :: rest')).data from rfl,
          ih (fun x hx => h x (by simp [hx])) (by simp)]
      simp

lemma pairLines_map_data (pairs : List (String × String)) :
    (pairLines pairs).map String.data = pairLineData pairs := by
  induction pairs with
  | nil => rfl
  | cons q tl ih =>
    obtain ⟨m, u⟩ := q
    simp [pairLines, pairLineData, ih]

lemma hash_line_ne_nil {l : List Char} (h : startsWithC ['#'] l = true) : l ≠ [] := by
  intro he
  subst he
  simp [startsWithC] at h

lemma pairLines_clean {pairs : List (String × String)}
    (hp : ∀ q ∈ pairs, validMetaLine q.1 ∧ validUrlLine q.2) :
    ∀ s ∈ pairLines pairs, cleanLine s := by
  induction pairs with
  | nil => intro x hx; simp [pairLines] at hx
  | cons q tl ih =>
    obtain ⟨m, u⟩ := q
    intro x hx
    simp [pairLines] at hx
    rcases hx with h | h | h
    · rw [h]; exact (hp (m, u) (by simp)).1.1
    · rw [h]; exact (hp (m, u) (by simp)).2.1
    · exact ih (fun r hr => hp r (by simp [hr])) x h

lemma parseM3ULoop_pairs (pairs : List (String × String))
    (hp : ∀ q ∈ pairs, validMetaLine q.1 ∧ validUrlLine q.2) (rest : List (List Char)) :
    parseM3ULoop (pairLineData pairs ++ rest) none
      = pairs.map pairRecord ++ parseM3ULoop rest none := by
  induction pairs with
  | nil => simp [pairLineData]
  | cons q tl ih =>
    obtain ⟨m, u⟩ := q
    obtain ⟨⟨hmc, hms⟩, huc, hune, huh⟩ := hp (m, u) (by simp)
    have hnotExt : startsWithC "#EXTINF".data (trimC u.data) = false := by
      cases hx : startsWithC "#EXTINF".data (trimC u.data) with
      | false => rfl
      | true => rw [startsWithC_extinf_hash hx] at huh; exact absurd huh (by simp)
    show parseM3ULoop (m.data :: u.data :: (pairLineData tl ++ rest)) none = _
    rw [show parseM3ULoop (m.data :: u.data :: (pairLineData tl ++ rest)) none
          = parseM3ULoop (u.data :: (pairLineData tl ++ rest)) (some (mkMeta (trimC m.data))) from by
        simp [parseM3ULoop, extinf_line_ne_nil hms, hms]]
    rw [show parseM3ULoop (u.data :: (pairLineData tl ++ rest)) (some (mkMeta (trimC m.data)))
          = mkChan (mkMeta (trimC m.data)) (trimC u.data)
              :: parseM3ULoop (pairLineData tl ++ rest) none from by
        simp [parseM3ULoop, hune, hnotExt, huh]]
    rw [ih (fun r hr => hp r (by simp [hr]))]
    rfl

/-- Like `parseM3ULoop_pairs`, but from an arbitrary pending-metadata
state: the first line of a non-empty pair list is an `#EXTINF` line,
which overwrites whatever is pending without producing a record. -/
lemma parseM3ULoop_pairs_cur (m u : String) (tl : List (String × String))
    (hp : ∀ q ∈ (m, u) :: tl, validMetaLine q.1 ∧ validUrlLine q.2)
    (rest : List (List Char)) (cur : Option M3UMeta) :
    parseM3ULoop (pairLineData ((m, u) :: tl) ++ rest) cur
      = ((m, u) :: tl).map pairRecord ++ parseM3ULoop rest none := by
  obtain ⟨⟨hmc, hms⟩, huc, hune, huh⟩ := hp (m, u) (by simp)
  have hnotExt : startsWithC "#EXTINF".data (trimC u.data) = false := by
    cases hx : startsWithC "#EXTINF".data (trimC u.data) with
    | false => rfl
    | true => rw [startsWithC_extinf_hash hx] at huh; exact absurd huh (by simp)
  show parseM3ULoop (m.data :: u.data :: (pairLineData tl ++ rest)) cur = _
  rw [show parseM3ULoop (m.data :: u.data :: (pairLineData tl ++ rest)) cur
        = parseM3ULoop (u.data :: (pairLineData tl ++ rest)) (some (mkMeta (trimC m.data))) from by
      simp [parseM3ULoop, extinf_line_ne_nil hms, hms]]
  rw [show parseM3ULoop (u.data :: (pairLineData tl ++ rest)) (some (mkMeta (trimC m.data)))
        = mkChan (mkMeta (trimC m.data)) (trimC u.data)
            :: parseM3ULoop (pairLineData tl ++ rest) none from by
      simp [parseM3ULoop, hune, hnotExt, huh]]
  rw [parseM3ULoop_pairs tl (fun r hr => hp r (by simp [hr])) rest]
  rfl

/-- **C6.** For every playlist text consisting of valid `#EXTINF`/URL
pairs, `parseM3U` produces exactly one channel record per pair, in source
order. A metadata line with no following URL line produces no record in
either discard case of the claim: appended at the end of input (second
conjunct — with `pairs = []` this is a lone `#EXTINF` yielding zero
records), or as the first of two metadata lines in a row (third
conjunct — `mx` immediately precedes the first pair's metadata line and
is overwritten by it, every record still coming from the pairs). -/
theorem parseM3U_pairs_in_order (pairs : List (String × String)) (mx : String)
    (hp : ∀ q ∈ pairs, validMetaLine q.1 ∧ validUrlLine q.2) (hm : validMetaLine mx) :
    parseM3U (joinLines (pairLines pairs)) = pairs.map pairRecord ∧
    parseM3U (joinLines (pairLines pairs ++ [mx])) = pairs.map pairRecord ∧
    parseM3U (joinLines (mx :: pairLines pairs)) = pairs.map pairRecord := by
  have hloneTail : parseM3ULoop [mx.data] none = [] := by
    simp [parseM3ULoop, extinf_line_ne_nil hm.2, hm.2]
  refine ⟨?_, ?_, ?_⟩
  · cases pairs with
    | nil => decide
    | cons q tl =>
      unfold parseM3U
      rw [splitLinesJS_joinLines _ (pairLines_clean hp) (by obtain ⟨m, u⟩ := q; simp [pairLines]),
          pairLines_map_data]
      have := parseM3ULoop_pairs (q :: tl) hp []
      rw [List.append_nil] at this
      rw [this]
      simp [parseM3ULoop]
  · unfold parseM3U
    have hclean : ∀ s ∈ pairLines pairs ++ [mx], cleanLine s := by
      intro s hs
      rcases List.mem_append.mp hs with hs | hs
      · exact pairLines_clean hp s hs
      · simp at hs; subst hs; exact hm.1
    rw [splitLinesJS_joinLines _ hclean (by simp), List.map_append, pairLines_map_data]
    rw [show (([mx].map String.data : List (List Char))) = [mx.data] from rfl,
        parseM3ULoop_pairs pairs hp [mx.data], hloneTail]
    simp
  · cases pairs with
    | nil =>
      unfold parseM3U
      rw [show pairLines ([] : List (String × String)) = [] from rfl,
          splitLinesJS_joinLines [mx] (by intro s hs; simp at hs; rw [hs]; exact hm.1) (by simp)]
      simpa using hloneTail
    | cons q tl =>
      obtain ⟨m1, u1⟩ := q
      unfold parseM3U
      have hclean : ∀ s ∈ mx :: pairLines ((m1, u1) :: tl), cleanLine s := by
        intro s hs
        rcases List.mem_cons.mp hs with h | h
        · rw [h]; exact hm.1
        · exact pairLines_clean hp s h
      rw [splitLinesJS_joinLines _ hclean (by simp), List.map_cons, pairLines_map_data]
      rw [show parseM3ULoop (mx.data :: pairLineData ((m1, u1) :: tl)) none
            = parseM3ULoop (pairLineData ((m1, u1) :: tl)) (some (mkMeta (trimC mx.data))) from by
          simp [parseM3ULoop, extinf_line_ne_nil hm.2, hm.2]]
      have := parseM3ULoop_pairs_cur m1 u1 tl hp [] (some (mkMeta (trimC mx.data)))
      rw [List.append_nil] at this
      rw [this]
      simp [parseM3ULoop]

/-- Concrete pair list for the C6 witness. -/
def pairsW : List (String × String) :=
  [("#EXTINF:-1 tvg-id=\"bbc1\",A", "http://a"), ("#EXTINF:-1,B", "http://b")]

/-- Witness for C6 at a concrete playlist: hypotheses hold and the parse
yields exactly one record per pair, in order; a trailing lone
`#EXTINF:-1,C` line adds nothing, and the same line placed right before
the first pair's metadata line (two metadata lines in a row) also adds
nothing. -/
theorem parseM3U_pairs_in_order_witness :
    ((∀ q ∈ pairsW, validMetaLine q.1 ∧ validUrlLine q.2) ∧ validMetaLine "#EXTINF:-1,C") ∧
    (parseM3U (joinLines (pairLines pairsW)) = pairsW.map pairRecord ∧
      parseM3U (joinLines (pairLines pairsW ++ ["#EXTINF:-1,C"])) = pairsW.map pairRecord ∧
      parseM3U (joinLines ("#EXTINF:-1,C" :: pairLines pairsW)) = pairsW.map pairRecord) :=
  ⟨⟨by decide, by decide⟩, parseM3U_pairs_in_order pairsW "#EXTINF:-1,C" (by decide) (by decide)⟩

/-- **C7 counterexample.** The claim says a comment line between a
pending `#EXTINF` metadata line and the following URL line invalidates
the metadata, so that no record is produced. In the source a comment line
matches neither branch of the loop (`startsWith("#EXTINF")` fails and the
URL branch requires `!line.startsWith("#")`), so the pending slot
survives and the record *is* produced. -/
theorem parseM3U_comment_counterexample :
    parseM3U "#EXTINF:-1,A\n#comment\nhttp://x"
      = [{ title := "A", group := "Other", logo := "", tvgId := "", chno := ""
         , rawAttrs := [], url := "http://x" }] ∧
    parseM3U "#EXTINF:-1,A\n#comment\nhttp://x" ≠ [] := by
  constructor
  · decide
  · decide

/-- **C7 (amended).** A comment line (`#`-prefixed, not `#EXTINF`)
between a metadata line and its URL line is skipped and leaves the
pending metadata intact: the record for the metadata/URL combination is
still produced. -/
theorem parseM3U_comment_keeps_pending (m c u : String)
    (hm : validMetaLine m) (hc : validCommentLine c) (hu : validUrlLine u) :
    parseM3U (joinLines [m, c, u]) = [mkChan (mkMeta (trimC m.data)) (trimC u.data)] := by
  obtain ⟨hmc, hms⟩ := hm
  obtain ⟨hcc, hch, hcns⟩ := hc
  obtain ⟨huc, hune, huh⟩ := hu
  have hnotExt : startsWithC "#EXTINF".data (trimC u.data) = false := by
    cases hx : startsWithC "#EXTINF".data (trimC u.data) with
    | false => rfl
    | true => rw [startsWithC_extinf_hash hx] at huh; exact absurd huh (by simp)
  unfold parseM3U
  rw [splitLinesJS_joinLines [m, c, u]
        (by intro s hs; simp at hs; rcases hs with rfl | rfl | rfl <;> assumption) (by simp)]
  show parseM3ULoop [m.data, c.data, u.data] none = _
  rw [show parseM3ULoop [m.data, c.data, u.data] none
        = parseM3ULoop [c.data, u.data] (some (mkMeta (trimC m.data))) from by
      simp [parseM3ULoop, extinf_line_ne_nil hms, hms]]
  rw [show parseM3ULoop [c.data, u.data] (some (mkMeta (trimC m.data)))
        = parseM3ULoop [u.data] (some (mkMeta (trimC m.data))) from by
      simp [parseM3ULoop, hash_line_ne_nil hch, hcns, hch]]
  simp [parseM3ULoop, hune, hnotExt, huh]

/-- Witness for the amended C7 at a concrete playlist. -/
theorem parseM3U_comment_keeps_pending_witness :
    (validMetaLine "#EXTINF:-1,A" ∧ validCommentLine "#hello" ∧ validUrlLine "http://x") ∧
    parseM3U (joinLines ["#EXTINF:-1,A", "#hello", "http://x"])
      = [mkChan (mkMeta (trimC "#EXTINF:-1,A".data)) (trimC "http://x".data)] :=
  ⟨⟨by decide, by decide, by decide⟩,
    parseM3U_comment_keeps_pending "#EXTINF:-1,A" "#hello" "http://x"
      (by decide) (by decide) (by decide)⟩

/-! ## Lemmas: JSDate comparisons and the now/next scan -/

lemma jsDateLt_le_trans {a b c : JSDate} (h1 : jsDateLt a b = true) (h2 : jsDateLe b c = true) :
    jsDateLt a c = true := by
  cases a <;> cases b <;> cases c <;> simp_all [jsDateLt, jsDateLe] <;> omega

lemma jsDateLe_eq_false_of_lt {a b : JSDate} (h : jsDateLt a b = true) :
    jsDateLe b a = false := by
  cases a <;> cases b <;> simp_all [jsDateLt, jsDateLe] <;> omega

lemma jsDateLt_eq_false_of_le {a b : JSDate} (h : jsDateLe b a = true) :
    jsDateLt a b = false := by
  cases a <;> cases b <;> simp_all [jsDateLt, jsDateLe] <;> omega

lemma jsDateLt_eq_false_of_lt {a b : JSDate} (h : jsDateLt a b = true) :
    jsDateLt b a = false := by
  cases a <;> cases b <;> simp_all [jsDateLt, jsDateLe] <;> omega

lemma head?_eq_nth0 {α : Type} (l : List α) : l.head? = nth? l 0 := by cases l <;> rfl

lemma findIdxP_none {α : Type} {p : α → Bool} {l : List α} (h : ∀ b ∈ l, p b = false) :
    findIdxP p l = none := by
  induction l with
  | nil => rfl
  | cons x xs ih => simp [findIdxP, h x (by simp), ih (fun b hb => h b (by simp [hb]))]

lemma nowNextScan_eq_spec (now : JSDate) (arr : List ProgramEntry)
    (hsort : arr.Pairwise (fun a b => jsDateLe a.start b.start = true)) :
    nowNextScan now arr = specNowNext now arr := by
  induction arr with
  | nil => rfl
  | cons p rest ih =>
    obtain ⟨hhead, htail⟩ := List.pairwise_cons.mp hsort
    by_cases hc : (jsDateLe p.start now && jsDateLt now p.stop) = true
    · have h0 : findIdxP (fun q => jsDateLe q.start now && jsDateLt now q.stop) (p :: rest)
          = some 0 := by simp [findIdxP, hc]
      rw [show nowNextScan now (p :: rest) = (some p, rest.head?) from by
            simp [nowNextScan, hc]]
      unfold specNowNext
      rw [h0]
      rw [head?_eq_nth0]
      rfl
    · have hc' : (jsDateLe p.start now && jsDateLt now p.stop) = false :=
        eq_false_of_ne_true hc
      by_cases hf : jsDateLt now p.start = true
      · have hrest : findIdxP (fun q => jsDateLe q.start now && jsDateLt now q.stop) (p :: rest)
            = none := by
          apply findIdxP_none
          intro b hb
          rcases List.mem_cons.mp hb with h | h
          · rw [h]; exact hc'
          · simp [jsDateLe_eq_false_of_lt (jsDateLt_le_trans hf (hhead b h))]
        rw [show nowNextScan now (p :: rest) = (none, some p) from by
              simp [nowNextScan, hc', hf]]
        unfold specNowNext
        rw [hrest]
        simp [firstP, hf]
      · have hf' : jsDateLt now p.start = false := eq_false_of_ne_true hf
        rw [show nowNextScan now (p :: rest) = nowNextScan now rest from by
              simp [nowNextScan, hc', hf'], ih htail]
        unfold specNowNext
        rw [show findIdxP (fun q => jsDateLe q.start now && jsDateLt now q.stop) (p :: rest)
              = (findIdxP (fun q => jsDateLe q.start now && jsDateLt now q.stop) rest).map (· + 1)
            from by simp [findIdxP, hc']]
        cases hidx : findIdxP (fun q => jsDateLe q.start now && jsDateLt now q.stop) rest with
        | some i => simp [nth?]
        | none => simp [firstP, hf']

lemma nowNextScan_all_stopped (now : JSDate) (arr : List ProgramEntry)
    (hinv : ∀ p ∈ arr, jsDateLt p.start p.stop = true)
    (hstop : ∀ p ∈ arr, jsDateLe p.stop now = true) :
    nowNextScan now arr = (none, none) := by
  induction arr with
  | nil => rfl
  | cons p rest ih =>
    have h1 := hinv p (by simp)
    have h2 := hstop p (by simp)
    have hnc : jsDateLt now p.stop = false := jsDateLt_eq_false_of_le h2
    have hns : jsDateLt now p.start = false :=
      jsDateLt_eq_false_of_lt (jsDateLt_le_trans h1 h2)
    rw [show nowNextScan now (p :: rest) = nowNextScan now rest from by
          simp [nowNextScan, hnc, hns]]
    exact ih (fun q hq => hinv q (by simp [hq])) (fun q hq => hstop q (by simp [hq]))

/-- **C5 (amended).** On a matched list sorted ascending by start whose
entries satisfy the data-model invariant `start < stop`, the scan agrees
with the spec's description (first containing entry is current with its
successor as next, else first future entry is next), and when `now` is at
or past every entry's stop both are none. Without the `start < stop`
invariant the final clause is false (see the counterexample). -/
theorem nowNextScan_spec (now : JSDate) (arr : List ProgramEntry)
    (hsort : arr.Pairwise (fun a b => jsDateLe a.start b.start = true))
    (hinv : ∀ p ∈ arr, jsDateLt p.start p.stop = true) :
    nowNextScan now arr = specNowNext now arr ∧
    ((∀ p ∈ arr, jsDateLe p.stop now = true) → nowNextScan now arr = (none, none)) :=
  ⟨nowNextScan_eq_spec now arr hsort, fun hstop => nowNextScan_all_stopped now arr hinv hstop⟩

/-- Witness for C5 at a concrete sorted list and instant. -/
theorem nowNextScan_spec_witness :
    (([progX].Pairwise (fun a b => jsDateLe a.start b.start = true)) ∧
      (∀ p ∈ [progX], jsDateLt p.start p.stop = true)) ∧
    (nowNextScan (.valid 10) [progX] = specNowNext (.valid 10) [progX] ∧
      ((∀ p ∈ [progX], jsDateLe p.stop (JSDate.valid 10) = true) →
        nowNextScan (.valid 10) [progX] = (none, none))) :=
  ⟨⟨by decide, by decide⟩, nowNextScan_spec (.valid 10) [progX] (by decide) (by decide)⟩

/-- **C5 counterexample.** A sorted matched list (one entry, with
`start = 10 > stop = 9`, exactly what the guide parser can produce, see
`docC3`) where `now = 9` is at or past every entry's stop, yet the scan
returns a non-none `next` — the claim demands `(none, none)`. -/
theorem nowNextScan_counterexample :
    ([entC5].Pairwise (fun a b => jsDateLe a.start b.start = true)) ∧
    (∀ p ∈ [entC5], jsDateLe p.stop (JSDate.valid 9) = true) ∧
    nowNextScan (.valid 9) [entC5] ≠ (none, none) := by
  refine ⟨by decide, by decide, by decide⟩

/-! ## C1: the guide timestamp parser -/

lemma scanTs_isSome (cs : List Char) : (scanTs cs).isSome = hasRun14 cs := by
  induction cs with
  | nil => rfl
  | cons c rest ih =>
    cases h : first14Digits (c :: rest) with
    | true => simp [scanTs, tryTsHere, hasRun14, h]
    | false => simp [scanTs, tryTsHere, hasRun14, h, ih]

/-- **C1 (amended).** The timestamp parser performs an *unanchored*
leftmost search: it accepts `s` exactly when `s` contains fourteen
consecutive digits anywhere (extra characters before or after the
pattern are permitted, and the optional offset — at most one whitespace
character followed by `±HHMM` — never blocks acceptance); only strings
with no such run (including ISO-8601 forms) yield no timestamp. When the
matched components are in calendar range the result is the corresponding
UTC instant: `"20250615120000 +0200"` is 2025-06-15T10:00:00Z, and the
offset-free `"20250615120000"` is read as UTC. -/
theorem parseXmltvDate_spec :
    (∀ s : String, (parseXmltvDate s).isSome = hasRun14 s.data) ∧
    parseXmltvDate "20250615120000 +0200" = some (.valid 1749981600000) ∧
    parseXmltvDate "20250615120000" = some (.valid 1749988800000) := by
  refine ⟨fun s => ?_, by decide, by decide⟩
  show (Option.map _ (scanTs s.data)).isSome = _
  rw [← scanTs_isSome s.data]
  cases scanTs s.data <;> rfl

/-- **C1 counterexample.** `"x20250615120000"` has characters before the
pattern, so per the claim it must be unparseable; the unanchored source
regex accepts it (as 2025-06-15T12:00:00Z). -/
theorem parseXmltvDate_counterexample :
    parseXmltvDate "x20250615120000" = some (.valid 1749988800000) ∧
    parseXmltvDate "x20250615120000" ≠ none := by
  refine ⟨by decide, by decide⟩

/-! ## C2: the guide parser never surfaces a parse failure -/

/-- **C2.** `parseXMLTV` applied to the error document that `DOMParser`
returns for non-well-formed input: it does not abort — no failure can
surface to the caller because the function (like `parseFromString`
itself) has no failure path — and the result is an ordinary, empty
`GuideIndex`. -/
theorem parseXMLTV_on_error_document :
    parseXMLTV domParserErrorDocument = { channelIdToName := [], progs := [] } := by
  decide

/-! ## C3 counterexample: no `start < stop` check -/

/-- **C3 counterexample.** `docC3`'s programme has `start` 19:00 and
`stop` 18:00; both timestamps parse, so the entry is inserted even though
`start < stop` fails (indeed `stop < start`). -/
theorem parseXMLTV_start_stop_counterexample :
    progsLookup (parseXMLTV docC3) "c" = some [entC3] ∧
    jsDateLt entC3.start entC3.stop = false ∧
    jsDateLt entC3.stop entC3.start = true := by
  refine ⟨by decide, by decide, by decide⟩

/-! ## C4: resolution precedence -/

/-- **C4 counterexample.** A channel whose title is the literal
`"Unknown"` sentinel and whose metadata carries `tvg-name="BBC One"`,
against a guide where the display name `bbc one` leads to channel `X`
with a non-empty programme list. Per the claim, resolution should fall
back to the hint attribute and match `X`; the source falls back only when
the title is *empty*, normalizes `"Unknown"` itself, and finds nothing. -/
theorem getEpgForChannel_unknown_counterexample :
    chUnknown.tvgId = "" ∧ chUnknown.title = "Unknown" ∧
    lookupA chUnknown.rawAttrs "tvg-name" = some "BBC One" ∧
    lookupA (buildNameIndex epgBBC.channelIdToName) (normalizeName "BBC One") = some ["X"] ∧
    lookupA epgBBC.progs "X" = some [progX] ∧
    getEpgForChannel chUnknown (some epgBBC) = none := by
  decide

/-- **C4 (amended).** Resolution precedence: a non-empty `guideId`
present as a key of `progs` is used directly; otherwise the normalized
*title* drives the reconciliation lookup whenever the title is non-empty
(the `tvg-name` hint is consulted only when the title is empty — not when
it is the `"Unknown"` sentinel), taking the first candidate id present as
a key of `progs` (for parsed guides, equivalently: with a non-empty
list). The `"BBC One"`/`bbc one` scenario resolves through the
normalized-name path. -/
theorem getEpgForChannel_precedence :
    (∀ (ch : Channel) (g : GuideIndex), ch.tvgId ≠ "" → hasKeyA g.progs ch.tvgId = true →
      getEpgForChannel ch (some g) = some (ch.tvgId, (lookupA g.progs ch.tvgId).getD [])) ∧
    (∀ (ch : Channel) (g : GuideIndex), ch.title ≠ "" →
      (ch.tvgId = "" ∨ hasKeyA g.progs ch.tvgId = false) →
      getEpgForChannel ch (some g) = nameLookupPath g (normalizeName ch.title)) ∧
    (∀ (ch : Channel) (g : GuideIndex), ch.title = "" →
      (ch.tvgId = "" ∨ hasKeyA g.progs ch.tvgId = false) →
      getEpgForChannel ch (some g)
        = nameLookupPath g (normalizeName ((lookupA ch.rawAttrs "tvg-name").getD ""))) ∧
    getEpgForChannel chBBC (some epgBBC) = some ("X", [progX]) := by
  refine ⟨?_, ?_, ?_, by decide⟩
  · intro ch g h1 h2
    simp [getEpgForChannel, h1, h2]
  · intro ch g h1 h2
    have hcond : ¬(ch.tvgId ≠ "" ∧ hasKeyA g.progs ch.tvgId = true) := by
      rcases h2 with h | h
      · intro hl; exact hl.1 h
      · intro hl; rw [h] at hl; exact absurd hl.2 (by simp)
    simp only [getEpgForChannel]
    rw [if_neg (by simpa using hcond)]
    rw [show jsOrS ch.title ((lookupA ch.rawAttrs "tvg-name").getD "") = ch.title from by
          simp [jsOrS, h1]]
  · intro ch g h1 h2
    have hcond : ¬(ch.tvgId ≠ "" ∧ hasKeyA g.progs ch.tvgId = true) := by
      rcases h2 with h | h
      · intro hl; exact hl.1 h
      · intro hl; rw [h] at hl; exact absurd hl.2 (by simp)
    simp only [getEpgForChannel]
    rw [if_neg (by simpa using hcond)]
    rw [show jsOrS ch.title ((lookupA ch.rawAttrs "tvg-name").getD "")
          = (lookupA ch.rawAttrs "tvg-name").getD "" from by simp [jsOrS, h1]]

/-- Witness for the amended C4: the name path fires for `chBBC` against
`epgBBC`. -/
theorem getEpgForChannel_precedence_witness :
    (chBBC.title ≠ "" ∧ (chBBC.tvgId = "" ∨ hasKeyA epgBBC.progs chBBC.tvgId = false)) ∧
    getEpgForChannel chBBC (some epgBBC) = nameLookupPath epgBBC (normalizeName chBBC.title) :=
  ⟨⟨by decide, by decide⟩,
    getEpgForChannel_precedence.2.1 chBBC epgBBC (by decide) (Or.inl (by decide))⟩

/-! ## Lemmas: the progs multimap and the stable sort -/

/-- The step function of the `programme` loop. -/
def progStep (m : List (String × List ProgramEntry)) (p : XNode) :
    List (String × List ProgramEntry) :=
  match programmeEntry p with
  | none => m
  | some (c, ep) => pushMM m c ep

lemma buildProgs_eq_foldl (els : List XNode) : buildProgs els = els.foldl progStep [] := rfl

lemma lookupA_appendAtA {α : Type} (m : List (String × List α)) (c : String) (v : α)
    (x : String) :
    lookupA (appendAtA m c v) x
      = if x = c then (lookupA m c).map (· ++ [v]) else lookupA m x := by
  induction m with
  | nil => by_cases h : x = c <;> simp [appendAtA, lookupA, h]
  | cons kv rest ih =>
    obtain ⟨k, l⟩ := kv
    by_cases hk : k = c
    · rw [show appendAtA ((k, l) :: rest) c v = (k, l ++ [v]) :: rest from by
            simp [appendAtA, hk]]
      by_cases hx : k = x
      · rw [show lookupA ((k, l ++ [v]) :: rest) x = some (l ++ [v]) from by
              simp [lookupA, hx]]
        rw [if_pos (by rw [← hx, hk]),
            show lookupA ((k, l) :: rest) c = some l from by simp [lookupA, hk]]
        rfl
      · rw [show lookupA ((k, l ++ [v]) :: rest) x = lookupA rest x from by
              simp [lookupA, hx],
            if_neg (show ¬ x = c from fun h => hx (by rw [hk, h]))]
        simp [lookupA, hx]
    · rw [show appendAtA ((k, l) :: rest) c v = (k, l) :: appendAtA rest c v from by
            simp [appendAtA, hk]]
      by_cases hx : k = x
      · have hxc : ¬ x = c := fun h => hk (by rw [hx, h])
        simp [lookupA, hx, hxc]
      · simp [lookupA, hx, hk, ih]

lemma lookupA_append_single {α : Type} (m : List (String × α)) (c : String) (w : α)
    (x : String) :
    lookupA (m ++ [(c, w)]) x
      = match lookupA m x with
        | some l => some l
        | none => if c = x then some w else none := by
  induction m with
  | nil => simp [lookupA]
  | cons kv rest ih =>
    obtain ⟨k, l⟩ := kv
    by_cases hk : k = x <;> simp [lookupA, hk, ih]

lemma lookupA_pushMM {α : Type} (m : List (String × List α)) (c : String) (v : α)
    (x : String) :
    lookupA (pushMM m c v) x
      = if x = c then some ((lookupA m c).getD [] ++ [v]) else lookupA m x := by
  unfold pushMM
  cases hmc : lookupA m c with
  | some l =>
    have hk : hasKeyA m c = true := by simp [hasKeyA, hmc]
    rw [if_pos (by simpa using hk), lookupA_appendAtA]
    by_cases hx : x = c <;> simp [hx, hmc]
  | none =>
    have hk : hasKeyA m c = false := by simp [hasKeyA, hmc]
    rw [if_neg (by simp [hk]), lookupA_append_single]
    by_cases hx : x = c
    · subst hx; simp [hmc]
    · have hcx : ¬ c = x := fun h => hx h.symm
      cases hmx : lookupA m x <;> simp [hmx, hx, hcx]

lemma lookupA_sortProgs (m : List (String × List ProgramEntry)) (x : String) :
    lookupA (sortProgs m) x = (lookupA m x).map (stableSort progLe) := by
  induction m with
  | nil => rfl
  | cons kv rest ih =>
    obtain ⟨k, l⟩ := kv
    rw [show sortProgs ((k, l) :: rest) = (k, stableSort progLe l) :: sortProgs rest from rfl]
    by_cases hk : k = x
    · simp [lookupA, hk]
    · simp only [lookupA, if_neg hk]
      exact ih

lemma mem_sortInsert {α : Type} (le : α → α → Bool) (x a : α) (l : List α) :
    a ∈ sortInsert le x l ↔ a = x ∨ a ∈ l := by
  induction l with
  | nil => simp [sortInsert]
  | cons y ys ih =>
    by_cases h : le x y = true <;> simp [sortInsert, h, ih] <;> tauto

lemma mem_stableSort {α : Type} (le : α → α → Bool) (a : α) (l : List α) :
    a ∈ stableSort le l ↔ a ∈ l := by
  induction l with
  | nil => simp [stableSort]
  | cons x xs ih => simp [stableSort, mem_sortInsert, ih]

lemma stableSort_ne_nil {α : Type} (le : α → α → Bool) (l : List α) (h : l ≠ []) :
    stableSort le l ≠ [] := by
  cases l with
  | nil => exact absurd rfl h
  | cons x xs =>
    show sortInsert le x (stableSort le xs) ≠ []
    cases stableSort le xs with
    | nil => simp [sortInsert]
    | cons y ys => by_cases hle : le x y = true <;> simp [sortInsert, hle]

lemma pairwise_sortInsert {α : Type} (le : α → α → Bool) (x : α) (l : List α)
    (hl : l.Pairwise (fun a b => le a b = true))
    (htot : ∀ y ∈ l, le x y = true ∨ le y x = true)
    (htr : ∀ a b c, (a = x ∨ a ∈ l) → (b = x ∨ b ∈ l) → (c = x ∨ c ∈ l) →
      le a b = true → le b c = true → le a c = true) :
    (sortInsert le x l).Pairwise (fun a b => le a b = true) := by
  induction l with
  | nil => simp [sortInsert]
  | cons y ys ih =>
    obtain ⟨hy, hys⟩ := List.pairwise_cons.mp hl
    by_cases h : le x y = true
    · rw [show sortInsert le x (y :: ys) = x :: y :: ys from by simp [sortInsert, h]]
      refine List.pairwise_cons.mpr ⟨?_, List.pairwise_cons.mpr ⟨hy, hys⟩⟩
      intro b hb
      rcases List.mem_cons.mp hb with rfl | hb
      · exact h
      · exact htr x y b (Or.inl rfl) (Or.inr (by simp)) (Or.inr (by simp [hb])) h (hy b hb)
    · have h' : le y x = true := (htot y (by simp)).resolve_left h
      rw [show sortInsert le x (y :: ys) = y :: sortInsert le x ys from by simp [sortInsert, h]]
      have wk : ∀ {z : α}, (z = x ∨ z ∈ ys) → (z = x ∨ z ∈ y :: ys) := by
        intro z hz
        rcases hz with rfl | hz
        · exact Or.inl rfl
        · exact Or.inr (by simp [hz])
      refine List.pairwise_cons.mpr ⟨?_, ih hys (fun z hz => htot z (by simp [hz]))
        (fun a b c ha hb hc => htr a b c (wk ha) (wk hb) (wk hc))⟩
      intro b hb
      rcases (mem_sortInsert le x b ys).mp hb with rfl | hb
      · exact h'
      · exact hy b hb

lemma pairwise_stableSort {α : Type} (le : α → α → Bool) (l : List α)
    (htot : ∀ a ∈ l, ∀ b ∈ l, le a b = true ∨ le b a = true)
    (htr : ∀ a ∈ l, ∀ b ∈ l, ∀ c ∈ l, le a b = true → le b c = true → le a c = true) :
    (stableSort le l).Pairwise (fun a b => le a b = true) := by
  induction l with
  | nil => simp [stableSort]
  | cons x xs ih =>
    show (sortInsert le x (stableSort le xs)).Pairwise _
    have hm : ∀ {z : α}, (z = x ∨ z ∈ stableSort le xs) → z ∈ x :: xs := by
      intro z hz
      rcases hz with rfl | hz
      · simp
      · simp [(mem_stableSort le z xs).mp hz]
    apply pairwise_sortInsert
    · exact ih (fun a ha b hb => htot a (by simp [ha]) b (by simp [hb]))
        (fun a ha b hb c hc => htr a (by simp [ha]) b (by simp [hb]) c (by simp [hc]))
    · intro y hy
      exact htot x (by simp) y (hm (Or.inr hy))
    · intro a b c ha hb hc
      exact htr a (hm ha) b (hm hb) c (hm hc)

lemma filter_sortInsert_pos {α : Type} (le : α → α → Bool) (p : α → Bool) (x : α)
    (l : List α) (hpx : p x = true) (hkey : ∀ y, p y = true → le x y = true) :
    (sortInsert le x l).filter p = x :: l.filter p := by
  induction l with
  | nil => simp [sortInsert, hpx]
  | cons y ys ih =>
    by_cases h : le x y = true
    · simp [sortInsert, h, hpx]
    · have hpy : p y = false := by
        cases hp : p y with
        | false => rfl
        | true => exact absurd (hkey y hp) h
      simp [sortInsert, h, hpy, ih]

lemma filter_sortInsert_neg {α : Type} (le : α → α → Bool) (p : α → Bool) (x : α)
    (l : List α) (hpx : p x = false) :
    (sortInsert le x l).filter p = l.filter p := by
  induction l with
  | nil => simp [sortInsert, hpx]
  | cons y ys ih =>
    by_cases h : le x y = true
    · simp [sortInsert, h, hpx]
    · rw [show sortInsert le x (y :: ys) = y :: sortInsert le x ys from by simp [sortInsert, h],
          List.filter_cons, List.filter_cons, ih]

lemma filter_stableSort {α : Type} (le : α → α → Bool) (p : α → Bool) (l : List α)
    (hkey : ∀ a b, p a = true → p b = true → le a b = true) :
    (stableSort le l).filter p = l.filter p := by
  induction l with
  | nil => rfl
  | cons x xs ih =>
    cases hp : p x with
    | true =>
      rw [show stableSort le (x :: xs) = sortInsert le x (stableSort le xs) from rfl,
          filter_sortInsert_pos le p x _ hp (fun y hy => hkey x y hp hy), ih]
      simp [hp]
    | false =>
      rw [show stableSort le (x :: xs) = sortInsert le x (stableSort le xs) from rfl,
          filter_sortInsert_neg le p x _ hp, ih]
      simp [hp]

lemma foldl_progStep_lookup_mem {id : String} {e : ProgramEntry} :
    ∀ (ps : List XNode) (m : List (String × List ProgramEntry)) (l : List ProgramEntry),
      lookupA (ps.foldl progStep m) id = some l → e ∈ l →
      (∃ l₀, lookupA m id = some l₀ ∧ e ∈ l₀) ∨ ∃ p ∈ ps, programmeEntry p = some (id, e) := by
  intro ps
  induction ps with
  | nil => intro m l h he; exact Or.inl ⟨l, h, he⟩
  | cons p ps ih =>
    intro m l h he
    rcases ih (progStep m p) l h he with ⟨l₀, hl₀, hel₀⟩ | ⟨q, hq, hqe⟩
    · unfold progStep at hl₀
      cases hpe : programmeEntry p with
      | none => rw [hpe] at hl₀; exact Or.inl ⟨l₀, hl₀, hel₀⟩
      | some cv =>
        obtain ⟨c, ep⟩ := cv
        rw [hpe] at hl₀
        rw [lookupA_pushMM] at hl₀
        by_cases hx : id = c
        · rw [if_pos hx] at hl₀
          injection hl₀ with hl₀
          subst hl₀
          rcases List.mem_append.mp hel₀ with hin | hin
          · cases hmc : lookupA m c with
            | none => rw [hmc] at hin; simp at hin
            | some l₁ =>
              rw [hmc] at hin
              simp at hin
              exact Or.inl ⟨l₁, by rw [hx]; exact hmc, hin⟩
          · simp at hin
            subst hin
            refine Or.inr ⟨p, by simp, ?_⟩
            rw [hpe, hx]
        · rw [if_neg hx] at hl₀; exact Or.inl ⟨l₀, hl₀, hel₀⟩
    · exact Or.inr ⟨q, by simp [hq], hqe⟩

lemma foldl_progStep_ne_nil :
    ∀ (ps : List XNode) (m : List (String × List ProgramEntry)),
      (∀ k v, lookupA m k = some v → v ≠ []) →
      ∀ id l, lookupA (ps.foldl progStep m) id = some l → l ≠ [] := by
  intro ps
  induction ps with
  | nil => intro m hm id l h; exact hm id l h
  | cons p ps ih =>
    intro m hm id l h
    refine ih (progStep m p) ?_ id l h
    intro k v hv
    unfold progStep at hv
    cases hpe : programmeEntry p with
    | none => rw [hpe] at hv; exact hm k v hv
    | some cv =>
      obtain ⟨c, ep⟩ := cv
      rw [hpe] at hv
      rw [lookupA_pushMM] at hv
      by_cases hk : k = c
      · rw [if_pos hk] at hv
        injection hv with hv
        subst hv
        simp
      · rw [if_neg hk] at hv; exact hm k v hv

/-! ## C3 (amended), C8, C10 -/

/-- **C3 (amended).** A programme whose `start` or `stop` attribute is
absent, or in which the timestamp pattern matches nowhere, is dropped
entirely; every entry that appears under a channel id comes from a
programme element of the document whose two timestamps produced it
(`programmeEntry p = some (id, e)`, which requires both parses to
succeed). No relation between `start` and `stop` is enforced at
insertion (the original claim's `start < stop` invariant fails, see the
counterexample). -/
theorem parseXMLTV_entries_from_parsed (doc : XNode) (id : String) (l : List ProgramEntry)
    (e : ProgramEntry) (h : progsLookup (parseXMLTV doc) id = some l) (he : e ∈ l) :
    ∃ p ∈ collectTag "programme" doc, programmeEntry p = some (id, e) := by
  unfold progsLookup parseXMLTV at h
  simp only at h
  rw [lookupA_sortProgs] at h
  cases hb : lookupA (buildProgs (collectTag "programme" doc)) id with
  | none => rw [hb] at h; exact absurd h (by simp)
  | some l₀ =>
    rw [hb] at h
    simp only [Option.map_some'] at h
    injection h with h
    subst h
    have he₀ : e ∈ l₀ := (mem_stableSort progLe e l₀).mp he
    rw [buildProgs_eq_foldl] at hb
    rcases foldl_progStep_lookup_mem (collectTag "programme" doc) [] l₀ hb he₀ with
      ⟨l₁, hl₁, _⟩ | hfound
    · exact absurd hl₁ (by simp [lookupA])
    · exact hfound

/-- Witness for the amended C3 at `docC3`. -/
theorem parseXMLTV_entries_from_parsed_witness :
    (progsLookup (parseXMLTV docC3) "c" = some [entC3] ∧ entC3 ∈ [entC3]) ∧
    ∃ p ∈ collectTag "programme" docC3, programmeEntry p = some ("c", entC3) :=
  ⟨⟨by decide, by decide⟩,
    parseXMLTV_entries_from_parsed docC3 "c" [entC3] entC3 (by decide) (by decide)⟩

/-- **C10.** Every key present in the `progs` map of a parse result maps
to a non-empty programme sequence: an id is only given an entry at the
moment a programme is pushed under it, and sorting preserves
non-emptiness. (Hence, in resolution, `progs.has(id)` coincides with
`id` having a non-empty programme list.) -/
theorem parseXMLTV_progs_nonempty (doc : XNode) (id : String) (l : List ProgramEntry)
    (h : progsLookup (parseXMLTV doc) id = some l) : l ≠ [] := by
  unfold progsLookup parseXMLTV at h
  simp only at h
  rw [lookupA_sortProgs] at h
  cases hb : lookupA (buildProgs (collectTag "programme" doc)) id with
  | none => rw [hb] at h; exact absurd h (by simp)
  | some l₀ =>
    rw [hb] at h
    simp only [Option.map_some'] at h
    injection h with h
    subst h
    rw [buildProgs_eq_foldl] at hb
    have hne : l₀ ≠ [] :=
      foldl_progStep_ne_nil (collectTag "programme" doc) []
        (fun k v hv => absurd hv (by simp [lookupA])) id l₀ hb
    exact stableSort_ne_nil progLe l₀ hne

/-- Witness for C10 at `docC3`. -/
theorem parseXMLTV_progs_nonempty_witness :
    (progsLookup (parseXMLTV docC3) "c" = some [entC3]) ∧ [entC3] ≠ [] :=
  ⟨by decide, parseXMLTV_progs_nonempty docC3 "c" [entC3] (by decide)⟩

/-- A guide document with two programmes of one channel in
reverse-chronological document order. -/
def docC8 : XNode :=
  .elem "tv" []
    [ .elem "programme"
        [("channel", "c"), ("start", "20250101190000"), ("stop", "20250101200000")] []
    , .elem "programme"
        [("channel", "c"), ("start", "20250101180000"), ("stop", "20250101190000")] [] ]

/-- The 19:00–20:00 entry of `docC8`. -/
def entC8a : ProgramEntry :=
  { start := .valid 1735758000000, stop := .valid 1735761600000
  , title := "(okänt)", desc := "", category := "" }

/-- The 18:00–19:00 entry of `docC8`. -/
def entC8b : ProgramEntry :=
  { start := .valid 1735754400000, stop := .valid 1735758000000
  , title := "(okänt)", desc := "", category := "" }

/-- A guide document whose first programme has an in-pattern but
out-of-calendar-range start (`20259901000000`, month 99): the timestamp
regex matches, `new Date` yields an Invalid Date, and the object is
truthy, so the entry is inserted. The second programme (the 18:00–19:00
`entC8b`) is ordinary. -/
def docNaN : XNode :=
  .elem "tv" []
    [ .elem "programme"
        [("channel", "c"), ("start", "20259901000000"), ("stop", "20250101010000")] []
    , .elem "programme"
        [("channel", "c"), ("start", "20250101180000"), ("stop", "20250101190000")] [] ]

/-- The Invalid-Date-start entry of `docNaN`. -/
def entNaN : ProgramEntry :=
  { start := .invalid, stop := .valid 1735693200000
  , title := "(okänt)", desc := "", category := "" }

/-- **C8 counterexample.** The claim quantifies over every parsed guide,
but `docNaN` is parser-reachable and refutes it: its month-99 `start`
matches the timestamp pattern yet gives an Invalid Date, the entry is
inserted (Invalid Date is truthy), and with an Invalid-Date start among
two entries the channel's list is not sorted ascending by start in
*either* of its two possible orders — every `jsDateLe` comparison with an
Invalid Date is false — so the claim fails under any sort permutation the
(implementation-defined, NaN-inconsistent) engine sort could produce. The
second conjunct records this model's concrete output (document order, the
stable sort under the comparator's NaN-to-zero coercion). -/
theorem parseXMLTV_sorted_counterexample :
    preSortLookup docNaN "c" = some [entNaN, entC8b] ∧
    progsLookup (parseXMLTV docNaN) "c" = some [entNaN, entC8b] ∧
    entNaN.start = JSDate.invalid ∧
    ¬ ([entNaN, entC8b].Pairwise (fun a b => jsDateLe a.start b.start = true)) ∧
    ¬ ([entC8b, entNaN].Pairwise (fun a b => jsDateLe a.start b.start = true)) := by
  refine ⟨by decide, by decide, by decide, by decide, by decide⟩

/-- **C8 (amended).** For a parsed guide all of whose inserted entries
carry valid start instants, each channel's final programme list is the
stable sort of its document-order list by start time: it is sorted
ascending by start (`jsDateLe` pairwise), and for every start value `k`
the entries with start `k` appear exactly in their document order (the
filter by `k` is unchanged by the sort). The valid-instant hypothesis is
forced by the counterexample: an inserted Invalid-Date start (in-pattern,
out-of-range timestamp) makes the comparator NaN-inconsistent, no order
of the list is ascending by start, and the engine's sort order is
implementation-defined. -/
theorem parseXMLTV_sorted_stable (doc : XNode) (id : String) (l₀ : List ProgramEntry)
    (h : preSortLookup doc id = some l₀) (hv : ∀ e ∈ l₀, e.start ≠ JSDate.invalid) :
    progsLookup (parseXMLTV doc) id = some (stableSort progLe l₀) ∧
    (stableSort progLe l₀).Pairwise (fun a b => jsDateLe a.start b.start = true) ∧
    ∀ k : JSDate, (stableSort progLe l₀).filter (fun e => e.start = k)
      = l₀.filter (fun e => e.start = k) := by
  have hVal : ∀ e ∈ l₀, ∃ ms : Int, e.start = JSDate.valid ms := by
    intro e hei
    cases hse : e.start with
    | invalid => exact absurd hse (hv e hei)
    | valid ms => exact ⟨ms, rfl⟩
  refine ⟨?_, ?_, ?_⟩
  · unfold progsLookup parseXMLTV
    simp only
    rw [lookupA_sortProgs]
    unfold preSortLookup at h
    rw [h]
    rfl
  · have hpw := pairwise_stableSort progLe l₀
      (by
        intro a ha b hb
        obtain ⟨x, hx⟩ := hVal a ha
        obtain ⟨y, hy⟩ := hVal b hb
        simp [progLe, cmpVal, hx, hy]
        omega)
      (by
        intro a ha b hb c hc
        obtain ⟨x, hx⟩ := hVal a ha
        obtain ⟨y, hy⟩ := hVal b hb
        obtain ⟨z, hz⟩ := hVal c hc
        simp [progLe, cmpVal, hx, hy, hz]
        omega)
    refine List.Pairwise.imp_of_mem ?_ hpw
    intro a b ha hb hab
    obtain ⟨x, hx⟩ := hVal a ((mem_stableSort progLe a l₀).mp ha)
    obtain ⟨y, hy⟩ := hVal b ((mem_stableSort progLe b l₀).mp hb)
    simp [progLe, cmpVal, hx, hy] at hab
    simp [jsDateLe, hx, hy]
    omega
  · intro k
    refine filter_stableSort progLe _ l₀ ?_
    intro a b ha hb
    have ha' : a.start = k := by simpa using ha
    have hb' : b.start = k := by simpa using hb
    rw [progLe, ha', hb']
    cases k <;> simp [cmpVal]

/-- Witness for C8 at `docC8`: the document-order list is
reverse-chronological and the parse result is its stable sort. -/
theorem parseXMLTV_sorted_stable_witness :
    (preSortLookup docC8 "c" = some [entC8a, entC8b] ∧
      (∀ e ∈ [entC8a, entC8b], e.start ≠ JSDate.invalid)) ∧
    (progsLookup (parseXMLTV docC8) "c" = some (stableSort progLe [entC8a, entC8b]) ∧
      (stableSort progLe [entC8a, entC8b]).Pairwise
        (fun a b => jsDateLe a.start b.start = true) ∧
      ∀ k : JSDate, (stableSort progLe [entC8a, entC8b]).filter (fun e => e.start = k)
        = [entC8a, entC8b].filter (fun e => e.start = k)) :=
  ⟨⟨by decide, by decide⟩,
    parseXMLTV_sorted_stable docC8 "c" [entC8a, entC8b] (by decide) (by decide)⟩

/-! ## C9: `normalizeName` equals the spec's reference definition -/

lemma isKeep_not_ws {c : Char} (h : isKeep c = true) : isWS c = false := by
  cases hw : isWS c with
  | false => rfl
  | true =>
    exfalso
    have hw' : c = ' ' ∨ c = '\t' ∨ c = '\r' ∨ c = '\n' := by
      simpa [isWS, Char.isWhitespace, or_assoc] using hw
    rcases hw' with rfl | rfl | rfl | rfl <;> revert h <;> decide

lemma replaceRuns_false_keep {c : Char} (rest : List Char) (h : isKeep c = true) :
    replaceRuns false (c :: rest) = c :: replaceRuns false rest := by
  simp [replaceRuns, h]

lemma replaceRuns_true_keep {c : Char} (rest : List Char) (h : isKeep c = true) :
    replaceRuns true (c :: rest) = c :: replaceRuns false rest := by
  simp [replaceRuns, h]

lemma replaceRuns_false_other {c : Char} (rest : List Char) (h : isKeep c = false) :
    replaceRuns false (c :: rest) = ' ' :: replaceRuns true rest := by
  simp [replaceRuns, h]

lemma replaceRuns_true_other {c : Char} (rest : List Char) (h : isKeep c = false) :
    replaceRuns true (c :: rest) = replaceRuns true rest := by
  simp [replaceRuns, h]

lemma replaceRuns_true_head (cs : List Char) :
    replaceRuns true cs = [] ∨
      ∃ k r, replaceRuns true cs = k :: r ∧ isKeep k = true := by
  induction cs with
  | nil => exact Or.inl rfl
  | cons c rest ih =>
    by_cases h : isKeep c = true
    · exact Or.inr ⟨c, replaceRuns false rest, replaceRuns_true_keep rest h, h⟩
    · rw [replaceRuns_true_other rest (eq_false_of_ne_true h)]
      exact ih

lemma trimRightC_nil : trimRightC [] = [] := rfl

lemma trimRightC_eq_nil_iff (l : List Char) :
    trimRightC l = [] ↔ l.reverse.dropWhile isWS = [] := by
  unfold trimRightC
  exact List.reverse_eq_nil_iff

lemma trimRightC_cons_notWS {a : Char} (l : List Char) (h : isWS a = false) :
    trimRightC (a :: l) = a :: trimRightC l := by
  unfold trimRightC
  rw [List.reverse_cons, List.dropWhile_append]
  cases hd : (l.reverse.dropWhile isWS).isEmpty
  · simp only [Bool.false_eq_true, if_false, List.reverse_append]
    simp [List.dropWhile_cons, h]
  · rw [List.isEmpty_iff] at hd
    simp [hd, List.dropWhile_cons, h]

lemma trimRightC_cons_ws {a : Char} (l : List Char) (h : isWS a = true) :
    trimRightC (a :: l) = if trimRightC l = [] then [] else a :: trimRightC l := by
  by_cases hl : trimRightC l = []
  · rw [if_pos hl]
    have hd : l.reverse.dropWhile isWS = [] := (trimRightC_eq_nil_iff l).mp hl
    unfold trimRightC
    rw [List.reverse_cons, List.dropWhile_append]
    simp [hd, List.dropWhile_cons, h]
  · rw [if_neg hl]
    have hd : l.reverse.dropWhile isWS ≠ [] := fun hc => hl ((trimRightC_eq_nil_iff l).mpr hc)
    unfold trimRightC
    rw [List.reverse_cons, List.dropWhile_append]
    rw [if_neg (by simpa [List.isEmpty_iff] using hd)]
    simp

lemma trimLeft_replaceRuns_false (cs : List Char) :
    (replaceRuns false cs).dropWhile isWS = replaceRuns true cs := by
  cases cs with
  | nil => rfl
  | cons c rest =>
    by_cases h : isKeep c = true
    · rw [replaceRuns_false_keep rest h, replaceRuns_true_keep rest h]
      simp [List.dropWhile_cons, isKeep_not_ws h]
    · have h' : isKeep c = false := eq_false_of_ne_true h
      rw [replaceRuns_false_other rest h', replaceRuns_true_other rest h']
      rw [List.dropWhile_cons]
      rw [if_pos (show isWS ' ' = true from rfl)]
      rcases replaceRuns_true_head rest with hnil | ⟨k, r, heq, hk⟩
      · simp [hnil]
      · rw [heq]
        simp [List.dropWhile_cons, isKeep_not_ws hk]

lemma wordsGo_ne_nil :
    ∀ (cs : List Char) (st : Option (List Char)),
      (st = none ∨ ∃ w, st = some w ∧ w ≠ []) → ∀ u ∈ wordsGo st cs, u ≠ [] := by
  intro cs
  induction cs with
  | nil =>
    intro st hst u hu
    rcases hst with rfl | ⟨w, rfl, hw⟩
    · simp [wordsGo] at hu
    · simp [wordsGo] at hu
      rw [hu]
      simpa using hw
  | cons c rest ih =>
    intro st hst u hu
    rcases hst with rfl | ⟨w, rfl, hw⟩
    · by_cases h : isKeep c = true
      · rw [show wordsGo none (c :: rest) = wordsGo (some [c]) rest from by
              simp [wordsGo, h]] at hu
        exact ih (some [c]) (Or.inr ⟨[c], rfl, by simp⟩) u hu
      · rw [show wordsGo none (c :: rest) = wordsGo none rest from by
              simp [wordsGo, h]] at hu
        exact ih none (Or.inl rfl) u hu
    · by_cases h : isKeep c = true
      · rw [show wordsGo (some w) (c :: rest) = wordsGo (some (c :: w)) rest from by
              simp [wordsGo, h]] at hu
        exact ih (some (c :: w)) (Or.inr ⟨c :: w, rfl, by simp⟩) u hu
      · rw [show wordsGo (some w) (c :: rest) = w.reverse :: wordsGo none rest from by
              simp [wordsGo, h]] at hu
        rcases List.mem_cons.mp hu with rfl | hu
        · simpa using hw
        · exact ih none (Or.inl rfl) u hu

lemma joinWordsTail_eq (ws : List (List Char)) (hne : ∀ u ∈ ws, u ≠ []) :
    joinWordsTail ws = if joinWords ws = [] then [] else ' ' :: joinWords ws := by
  cases ws with
  | nil => rfl
  | cons w tl =>
    have hw : w ≠ [] := hne w (by simp)
    have hjw : joinWords (w :: tl) ≠ [] := by
      show w ++ joinWordsTail tl ≠ []
      intro hc
      exact hw (List.append_eq_nil.mp hc).1
    rw [if_neg hjw]
    rfl

lemma normalize_core (cs : List Char) :
    (trimRightC (replaceRuns true cs) = joinWords (wordsGo none cs)) ∧
    (∀ w : List Char, joinWords (wordsGo (some w) cs)
      = w.reverse ++ trimRightC (replaceRuns false cs)) := by
  induction cs with
  | nil =>
    refine ⟨rfl, fun w => ?_⟩
    show joinWords [w.reverse] = w.reverse ++ trimRightC []
    rw [trimRightC_nil]
    show w.reverse ++ joinWordsTail [] = w.reverse ++ []
    rfl
  | cons c rest ih =>
    obtain ⟨ih1, ih2⟩ := ih
    by_cases h : isKeep c = true
    · constructor
      · rw [replaceRuns_true_keep rest h, trimRightC_cons_notWS _ (isKeep_not_ws h),
            show wordsGo none (c :: rest) = wordsGo (some [c]) rest from by simp [wordsGo, h],
            ih2 [c]]
        rfl
      · intro w
        rw [replaceRuns_false_keep rest h, trimRightC_cons_notWS _ (isKeep_not_ws h),
            show wordsGo (some w) (c :: rest) = wordsGo (some (c :: w)) rest from by
              simp [wordsGo, h],
            ih2 (c :: w)]
        simp
    · have h' : isKeep c = false := eq_false_of_ne_true h
      constructor
      · rw [replaceRuns_true_other rest h',
            show wordsGo none (c :: rest) = wordsGo none rest from by simp [wordsGo, h']]
        exact ih1
      · intro w
        rw [replaceRuns_false_other rest h',
            trimRightC_cons_ws _ (show isWS ' ' = true from rfl),
            show wordsGo (some w) (c :: rest) = w.reverse :: wordsGo none rest from by
              simp [wordsGo, h'],
            show joinWords (w.reverse :: wordsGo none rest)
              = w.reverse ++ joinWordsTail (wordsGo none rest) from rfl,
            joinWordsTail_eq (wordsGo none rest) (wordsGo_ne_nil rest none (Or.inl rfl)),
            ih1]

/-- **C9.** `normalizeName` equals the spec's reference definition for
every input string: lower-case, then each maximal run of characters
outside `[a-z0-9]` becomes a single separating space with no leading or
trailing space. The function is total, the empty string maps to the empty
string (and an undefined input is the empty string through the source's
falsiness guard), and `normalize("ESPN HD!!") = normalize("espn-hd") =
"espn hd"`. -/
theorem normalizeName_spec :
    (∀ s : String, normalizeName s = specNormalize s) ∧
    normalizeName "" = "" ∧
    normalizeName "ESPN HD!!" = "espn hd" ∧
    normalizeName "espn-hd" = "espn hd" ∧
    normalizeName "ESPN HD!!" = normalizeName "espn-hd" := by
  refine ⟨fun s => ?_, by decide, by decide, by decide, by decide⟩
  unfold normalizeName specNormalize
  show strOf (trimRightC ((replaceRuns false (s.data.map Char.toLower)).dropWhile isWS)) = _
  rw [trimLeft_replaceRuns_false, (normalize_core (s.data.map Char.toLower)).1]

end NetIPTV
